import Mathlib

/-!
Shallow embedding of the smart-university-admin request pipeline:
the SQL safety validator (`backend/sql_validator.py`), the row-cap
rewriting of the database executor (`backend/database.py`), the semantic
result cache (`backend/semantic_cache.py`), the caching middleware
(`backend/llm_middleware.py`) and the two schema-linking strategies
(`backend/schema_optimizer.py`, `backend/vector_schema.py`).

Strings are modelled as `List Char` (the ASCII fragment of Python
`str`); machine floats of the similarity computations are modelled as
exact rationals; the external sentence-transformer embedding model is an
opaque parameter producing normalized vectors, exactly as the code
treats it.
-/

namespace SmartUniversity

/-! ### Python string primitives (ASCII fragment) -/

/-- The whitespace characters stripped by Python `str.strip` and matched
by the regex class `\s` (ASCII fragment). -/
def isPySpace (c : Char) : Bool :=
  c = ' ' || c = '\t' || c = '\n' || c = '\r' || c = '\x0b' || c = '\x0c'

/-- Python `str.upper` (ASCII fragment). -/
def upperStr (s : List Char) : List Char := s.map Char.toUpper

/-- Python `str.lower` (ASCII fragment). -/
def lowerStr (s : List Char) : List Char := s.map Char.toLower

/-- Python `str.strip`: drop leading and trailing whitespace. -/
def stripStr (s : List Char) : List Char :=
  ((s.dropWhile isPySpace).reverse.dropWhile isPySpace).reverse

/-- Python `needle in hay` on strings: substring containment. -/
def subOf (needle hay : List Char) : Bool :=
  hay.tails.any (fun t => needle.isPrefixOf t)

/-- The normalization both caches apply to a question:
`question.lower().strip()`. -/
def normalizeQ (question : List Char) : List Char := stripStr (lowerStr question)

/-! ### Safety validator — `SQLValidator.is_safe_query` -/

/-- Models `SQLValidator.DANGEROUS_KEYWORDS`. -/
def DANGEROUS_KEYWORDS : List (List Char) :=
  ["DROP".toList, "DELETE".toList, "TRUNCATE".toList, "ALTER".toList,
   "CREATE".toList, "INSERT".toList, "UPDATE".toList, "GRANT".toList,
   "REVOKE".toList]

/-- Does `w` occur at the head of the input after zero or more whitespace
characters?  Models the regex fragment `\s*W` anchored at the current
position. -/
def wsThen (w : List Char) : List Char → Bool
  | [] => w.isPrefixOf ([] : List Char)
  | c :: rest => w.isPrefixOf (c :: rest) || (isPySpace c && wsThen w rest)

/-- The shapes of the regexes in `SQLValidator.INJECTION_PATTERNS`:
a literal, `;\s*W` (stacked statement), and `W\s*(` (inline call). -/
inductive Pat where
  | lit (s : List Char)
  | semiWs (w : List Char)
  | wordWsParen (w : List Char)
  deriving DecidableEq

/-- Does the pattern match at the head of the input? -/
def patAt : Pat → List Char → Bool
  | .lit p, t => p.isPrefixOf t
  | .semiWs w, t =>
    match t with
    | ';' :: rest => wsThen w rest
    | _ => false
  | .wordWsParen w, t => w.isPrefixOf t && wsThen ['('] (t.drop w.length)

/-- Models `re.search`: the pattern matches at some position of the input. -/
def patSearch (p : Pat) (s : List Char) : Bool := s.tails.any (patAt p)

/-- Models `SQLValidator.INJECTION_PATTERNS`.  The code searches the raw SQL
with `re.IGNORECASE`; matching the uppercased pattern against the
uppercased SQL is equivalent for these letter/punctuation patterns, so
the letters here are uppercased and `is_safe_query` searches
`sql.upper()`. -/
def INJECTION_PATTERNS : List Pat :=
  [Pat.semiWs "DROP".toList, Pat.semiWs "DELETE".toList,
   Pat.lit "--".toList, Pat.lit "/*".toList, Pat.lit "*/".toList,
   Pat.lit "XP_".toList, Pat.lit "SP_".toList,
   Pat.wordWsParen "EXEC".toList]

/-- Models `SQLValidator.is_safe_query`: returns `(is_safe, reason)`. -/
def is_safe_query (sql : List Char) : Bool × List Char :=
  match DANGEROUS_KEYWORDS.find? (fun kw => subOf kw (upperStr sql)) with
  | some kw => (false, "Dangerous keyword detected: ".toList ++ kw)
  | none =>
    if INJECTION_PATTERNS.any (fun p => patSearch p (upperStr sql)) then
      (false, "Potential SQL injection detected".toList)
    else if ("SELECT".toList).isPrefixOf (stripStr (upperStr sql)) then
      (true, "Query is safe".toList)
    else
      (false, "Only SELECT queries are allowed".toList)

/-! ### Database executor — `Database.execute_query` row-cap rewriting -/

/-- The SQL text `Database.execute_query` actually sends to the cursor:
a `LIMIT 1000` suffix is appended to a `SELECT` that mentions neither
`LIMIT` nor `GROUP BY`. -/
def execute_query_sql (sql : List Char) : List Char :=
  if ("SELECT".toList).isPrefixOf (stripStr (upperStr sql))
      && !(subOf "LIMIT".toList (stripStr (upperStr sql)))
      && !(subOf "GROUP BY".toList (stripStr (upperStr sql))) then
    sql ++ " LIMIT 1000".toList
  else
    sql

/-! ### Specification-side predicates for the validator and the row cap -/

/-- The uppercased SQL contains a dangerous keyword (spec rule 1). -/
def HasDangerous (sql : List Char) : Prop :=
  ∃ kw ∈ DANGEROUS_KEYWORDS, kw <:+: upperStr sql

/-- The SQL matches an injection-indicator pattern (spec rule 2). -/
def HasInjection (sql : List Char) : Prop :=
  ∃ p ∈ INJECTION_PATTERNS, patSearch p (upperStr sql) = true

/-- The trimmed uppercase SQL starts with `SELECT` (spec rule 3). -/
def StartsSelect (sql : List Char) : Prop :=
  "SELECT".toList <+: stripStr (upperStr sql)

theorem subOf_iff (n h : List Char) : subOf n h = true ↔ n <:+: h := by
  rw [List.infix_iff_prefix_suffix]
  simp only [subOf, List.any_eq_true, List.mem_tails, List.isPrefixOf_iff_prefix]
  exact ⟨fun ⟨t, ht, hp⟩ => ⟨t, hp, ht⟩, fun ⟨t, hp, ht⟩ => ⟨t, ht, hp⟩⟩

theorem hasDangerous_of_find (sql kw : List Char)
    (hf : DANGEROUS_KEYWORDS.find? (fun k => subOf k (upperStr sql)) = some kw) :
    HasDangerous sql := by
  have hp : subOf kw (upperStr sql) = true := by
    have h := List.find?_some hf
    simpa using h
  exact ⟨kw, List.mem_of_find?_eq_some hf, (subOf_iff _ _).1 hp⟩

theorem find_eq_none_of_not_dangerous (sql : List Char) (h : ¬HasDangerous sql) :
    DANGEROUS_KEYWORDS.find? (fun k => subOf k (upperStr sql)) = none := by
  rw [List.find?_eq_none]
  intro kw hmem hsub
  exact h ⟨kw, hmem, (subOf_iff _ _).1 hsub⟩

theorem hasInjection_iff_any (sql : List Char) :
    (INJECTION_PATTERNS.any (fun p => patSearch p (upperStr sql))) = true ↔
      HasInjection sql := by
  simp [HasInjection, List.any_eq_true]

theorem startsSelect_iff_bool (sql : List Char) :
    ("SELECT".toList).isPrefixOf (stripStr (upperStr sql)) = true ↔ StartsSelect sql := by
  simp [StartsSelect]

instance decHasDangerous (sql : List Char) : Decidable (HasDangerous sql) :=
  inferInstanceAs (Decidable (∃ kw ∈ DANGEROUS_KEYWORDS, kw <:+: upperStr sql))

instance decHasInjection (sql : List Char) : Decidable (HasInjection sql) :=
  inferInstanceAs (Decidable (∃ p ∈ INJECTION_PATTERNS, patSearch p (upperStr sql) = true))

instance decStartsSelect (sql : List Char) : Decidable (StartsSelect sql) :=
  inferInstanceAs (Decidable ("SELECT".toList <+: stripStr (upperStr sql)))

/-- C1: the safety validator applies its rules in order with first match
winning — a dangerous keyword makes the SQL unsafe with a reason naming
the keyword; otherwise an injection pattern makes it unsafe with the
generic injection reason; otherwise SQL whose trimmed uppercase form
does not start with `SELECT` is unsafe; otherwise it is safe — and the
four concrete examples of the specification classify accordingly. -/
theorem C1_validator_classification :
    (∀ sql : List Char,
      ((is_safe_query sql).1 = true ↔
        ¬HasDangerous sql ∧ ¬HasInjection sql ∧ StartsSelect sql) ∧
      (∀ kw, DANGEROUS_KEYWORDS.find? (fun k => subOf k (upperStr sql)) = some kw →
        kw ∈ DANGEROUS_KEYWORDS ∧ kw <:+: upperStr sql ∧
        is_safe_query sql = (false, "Dangerous keyword detected: ".toList ++ kw)) ∧
      (¬HasDangerous sql → HasInjection sql →
        is_safe_query sql = (false, "Potential SQL injection detected".toList)) ∧
      (¬HasDangerous sql → ¬HasInjection sql → ¬StartsSelect sql →
        is_safe_query sql = (false, "Only SELECT queries are allowed".toList))) ∧
    is_safe_query "SELECT * FROM students".toList = (true, "Query is safe".toList) ∧
    is_safe_query "SELECT * FROM students; DROP TABLE students".toList
      = (false, "Dangerous keyword detected: DROP".toList) ∧
    is_safe_query "UPDATE students SET gpa=4".toList
      = (false, "Dangerous keyword detected: UPDATE".toList) ∧
    is_safe_query "select name from students -- comment".toList
      = (false, "Potential SQL injection detected".toList) := by
  refine ⟨fun sql => ⟨?_, ?_, ?_, ?_⟩, by decide, by decide, by decide, by decide⟩
  · cases hf : DANGEROUS_KEYWORDS.find? (fun k => subOf k (upperStr sql)) with
    | some kw =>
        have hd := hasDangerous_of_find sql kw hf
        simp only [is_safe_query, hf]
        simp [hd]
    | none =>
        have hnd : ¬HasDangerous sql := by
          rintro ⟨kw, hmem, hinf⟩
          rw [List.find?_eq_none] at hf
          exact hf kw hmem ((subOf_iff _ _).2 hinf)
        by_cases hinj : (INJECTION_PATTERNS.any fun p => patSearch p (upperStr sql)) = true
        · have hi : HasInjection sql := (hasInjection_iff_any sql).1 hinj
          simp only [is_safe_query, hf, hinj]
          simp [hi]
        · have hni : ¬HasInjection sql := fun hi => hinj ((hasInjection_iff_any sql).2 hi)
          have hinjF : (INJECTION_PATTERNS.any fun p => patSearch p (upperStr sql)) = false :=
            Bool.eq_false_iff.mpr hinj
          by_cases hsel : ("SELECT".toList).isPrefixOf (stripStr (upperStr sql)) = true
          · have hs : StartsSelect sql := (startsSelect_iff_bool sql).1 hsel
            simp only [is_safe_query, hf, hinjF, hsel]
            simp [hnd, hni, hs]
          · have hns : ¬StartsSelect sql := fun hs => hsel ((startsSelect_iff_bool sql).2 hs)
            have hselF : ("SELECT".toList).isPrefixOf (stripStr (upperStr sql)) = false :=
              Bool.eq_false_iff.mpr hsel
            simp only [is_safe_query, hf, hinjF, hselF]
            simp [hns]
  · intro kw hf
    refine ⟨List.mem_of_find?_eq_some hf, ?_, ?_⟩
    · have hp : subOf kw (upperStr sql) = true := by
        have h := List.find?_some hf
        simpa using h
      exact (subOf_iff _ _).1 hp
    · simp only [is_safe_query, hf]
  · intro hnd hi
    have hf := find_eq_none_of_not_dangerous sql hnd
    have hinj := (hasInjection_iff_any sql).2 hi
    simp only [is_safe_query, hf, hinj]
    simp
  · intro hnd hni hns
    have hf := find_eq_none_of_not_dangerous sql hnd
    have hinjF : (INJECTION_PATTERNS.any fun p => patSearch p (upperStr sql)) = false :=
      Bool.eq_false_iff.mpr (fun hb => hni ((hasInjection_iff_any sql).1 hb))
    have hselF : ("SELECT".toList).isPrefixOf (stripStr (upperStr sql)) = false :=
      Bool.eq_false_iff.mpr (fun hb => hns ((startsSelect_iff_bool sql).1 hb))
    simp only [is_safe_query, hf, hinjF, hselF]
    simp

/-- Witness for C1: the injection rule fires on a concrete query that
contains no dangerous keyword but carries a block-comment marker. -/
theorem C1_validator_classification_witness :
    is_safe_query "select gpa from students /* hidden */".toList
      = (false, "Potential SQL injection detected".toList) :=
  (C1_validator_classification.1 ("select gpa from students /* hidden */".toList)).2.2.1
    (by decide) (by decide)

/-- C8: `Database.execute_query` appends " LIMIT 1000" to the SQL it
executes exactly when the trimmed uppercased SQL starts with `SELECT`
and contains neither `LIMIT` nor `GROUP BY`; otherwise the SQL text is
executed unchanged. -/
theorem C8_limit_append :
    ∀ sql : List Char,
      (("SELECT".toList <+: stripStr (upperStr sql) ∧
        ¬("LIMIT".toList <:+: stripStr (upperStr sql)) ∧
        ¬("GROUP BY".toList <:+: stripStr (upperStr sql))) →
        execute_query_sql sql = sql ++ " LIMIT 1000".toList) ∧
      ((¬("SELECT".toList <+: stripStr (upperStr sql)) ∨
        "LIMIT".toList <:+: stripStr (upperStr sql) ∨
        "GROUP BY".toList <:+: stripStr (upperStr sql)) →
        execute_query_sql sql = sql) := by
  intro sql
  constructor
  · rintro ⟨h1, h2, h3⟩
    have b1 : ("SELECT".toList).isPrefixOf (stripStr (upperStr sql)) = true :=
      (startsSelect_iff_bool sql).2 h1
    have b2 : subOf "LIMIT".toList (stripStr (upperStr sql)) = false :=
      Bool.eq_false_iff.mpr (fun hb => h2 ((subOf_iff _ _).1 hb))
    have b3 : subOf "GROUP BY".toList (stripStr (upperStr sql)) = false :=
      Bool.eq_false_iff.mpr (fun hb => h3 ((subOf_iff _ _).1 hb))
    simp only [execute_query_sql, b1, b2, b3, Bool.not_false, Bool.and_self, if_true]
  · intro h
    rcases h with h1 | h2 | h3
    · have b1 : ("SELECT".toList).isPrefixOf (stripStr (upperStr sql)) = false :=
        Bool.eq_false_iff.mpr (fun hb => h1 ((startsSelect_iff_bool sql).1 hb))
      simp only [execute_query_sql, b1, Bool.false_and]
      simp
    · have b2 : subOf "LIMIT".toList (stripStr (upperStr sql)) = true := (subOf_iff _ _).2 h2
      simp only [execute_query_sql, b2, Bool.not_true, Bool.and_false, Bool.false_and]
      simp
    · have b3 : subOf "GROUP BY".toList (stripStr (upperStr sql)) = true := (subOf_iff _ _).2 h3
      simp only [execute_query_sql, b3, Bool.not_true, Bool.and_false]
      simp

/-- Witness for C8: a plain `SELECT` gets the row cap appended, while a
query that already carries `LIMIT` is passed through unchanged. -/
theorem C8_limit_append_witness :
    execute_query_sql "SELECT name FROM students WHERE gpa > 3".toList
      = "SELECT name FROM students WHERE gpa > 3".toList ++ " LIMIT 1000".toList ∧
    execute_query_sql "SELECT x FROM t LIMIT 5".toList = "SELECT x FROM t LIMIT 5".toList :=
  ⟨(C8_limit_append ("SELECT name FROM students WHERE gpa > 3".toList)).1
      ⟨by decide, by decide, by decide⟩,
   (C8_limit_append ("SELECT x FROM t LIMIT 5".toList)).2 (Or.inr (Or.inl (by decide)))⟩

/-! ### Association-list model of Python dict / OrderedDict

A Python (ordered) dict is modelled as a key/value list, front = oldest
entry in insertion/access order, back = most recent.  Keys are unique in
every state the code can build; the operations below agree with the dict
operations on such states. -/

/-- Models `d[k]` / `d.get(k)`: the value of the first pair with key `k`. -/
def assocVal {K V : Type} [DecidableEq K] (d : List (K × V)) (k : K) : Option V :=
  (d.find? (fun p => decide (p.1 = k))).map (fun p => p.2)

/-- Remove the first pair with key `k` (the target of `pop`). -/
def removeKeyFirst {K V : Type} [DecidableEq K] : List (K × V) → K → List (K × V)
  | [], _ => []
  | p :: rest, k => if p.1 = k then rest else p :: removeKeyFirst rest k

/-- Models `OrderedDict.move_to_end(k)`: move the entry for `k` to the back. -/
def moveToEnd {K V : Type} [DecidableEq K] (d : List (K × V)) (k : K) : List (K × V) :=
  match assocVal d k with
  | some v => removeKeyFirst d k ++ [(k, v)]
  | none => d

/-- Models `d[k] = v`: overwrite in place when the key exists (order
preserved, as Python dict assignment does), append at the back
otherwise. -/
def insertOrUpdate {K V : Type} [DecidableEq K] : List (K × V) → K → V → List (K × V)
  | [], k, v => [(k, v)]
  | p :: rest, k, v => if p.1 = k then (k, v) :: rest else p :: insertOrUpdate rest k v

/-! ### Semantic cache — `SemanticCache` -/

/-- A stored entry of `SemanticCache.cache` (the dict built by `set`). -/
structure CacheVal (R : Type) where
  sql : List Char
  results : R
  cached : Bool
  cacheType : List Char
  deriving DecidableEq

/-- The dict returned by `SemanticCache.get` on a hit: the stored copy
with `cached` / `cache_type` overwritten and, for semantic hits, a
`similarity_score` added. -/
structure CacheHit (R : Type) where
  sql : List Char
  results : R
  cached : Bool
  cacheType : List Char
  similarityScore : Option ℚ
  deriving DecidableEq

/-- The mutable state of a `SemanticCache` instance.  `vectors` models
the FAISS index contents in insertion order; position in the list is the
FAISS id, which coincides with the ids allocated through `current_id`
because both are reset together and incremented together. -/
structure SemState (R : Type) where
  maxSize : Nat
  threshold : ℚ
  cache : List (List Char × CacheVal R)
  vectors : List (List ℚ)
  idToQuestion : List (Nat × List Char)
  currentId : Nat
  deriving DecidableEq

/-- Inner product — the similarity `faiss.IndexFlatIP` reports on the
normalized embeddings (cosine similarity). -/
def dotQ (a b : List ℚ) : ℚ := ((a.zip b).map (fun p => p.1 * p.2)).sum

/-- Scan for the greatest inner product, keeping the leftmost maximum. -/
def nearestAux (q : List ℚ) : List (List ℚ) → Nat → ℚ × Nat → ℚ × Nat
  | [], _, best => best
  | v :: rest, i, best =>
      nearestAux q rest (i + 1) (if best.1 < dotQ q v then (dotQ q v, i) else best)

/-- Models `index.search(embedding, k=1)`: the greatest inner product over the
stored vectors together with the position (= id) attaining it. -/
def nearest (q : List ℚ) : List (List ℚ) → ℚ × Nat
  | [] => (0, 0)
  | v :: rest => nearestAux q rest 1 (dotQ q v, 0)

/-- The hit dict for an exact match: `cache_type` overwritten to
`"exact"`. -/
def exactHit {R : Type} (v : CacheVal R) : CacheHit R :=
  {sql := v.sql, results := v.results, cached := true,
   cacheType := "exact".toList, similarityScore := none}

/-- The hit dict for a semantic match: `cache_type` overwritten to
`"semantic"` and the similarity score attached. -/
def semanticHit {R : Type} (v : CacheVal R) (sim : ℚ) : CacheHit R :=
  {sql := v.sql, results := v.results, cached := true,
   cacheType := "semantic".toList, similarityScore := some sim}

/-- Models `SemanticCache.get`.  `deps` is the `DEPS_AVAILABLE and self.model`
capability flag; `embed` is the opaque sentence-transformer model
composed with the normalization of `_get_embedding`.  Returns the hit
(or `none`) together with the successor state (`get` mutates the access
order on an exact hit and nothing else). -/
def semGet {R : Type} (deps : Bool) (embed : List Char → List ℚ)
    (st : SemState R) (question : List Char) : Option (CacheHit R) × SemState R :=
  match assocVal st.cache (normalizeQ question) with
  | some v =>
      (some (exactHit v), {st with cache := moveToEnd st.cache (normalizeQ question)})
  | none =>
      if deps && !st.vectors.isEmpty then
        if st.threshold ≤ (nearest (embed question) st.vectors).1 then
          match assocVal st.idToQuestion (nearest (embed question) st.vectors).2 with
          | some simQ =>
              if simQ ≠ [] then
                match assocVal st.cache simQ with
                | some v =>
                    (some (semanticHit v (nearest (embed question) st.vectors).1), st)
                | none => (none, st)
              else (none, st)
          | none => (none, st)
        else (none, st)
      else (none, st)

/-- The dict value stored by `SemanticCache.set`. -/
def storedVal {R : Type} (sql : List Char) (results : R) : CacheVal R :=
  {sql := sql, results := results, cached := true, cacheType := "stored".toList}

/-- The eviction step of `SemanticCache.set`: when the cache has reached
capacity, `popitem(last=False)` drops the front (least recently used)
entry.  Python raises on an empty dict there; with a positive capacity
that branch only ever runs on a nonempty cache, where `tail` is exact. -/
def semSetEvict {R : Type} (st : SemState R) : SemState R :=
  if st.maxSize ≤ st.cache.length then {st with cache := st.cache.tail} else st

/-- The store step of `SemanticCache.set`: `self.cache[question_lower] = {...}`. -/
def semSetStore {R : Type} (st : SemState R) (qLower sql : List Char) (results : R) :
    SemState R :=
  {st with cache := insertOrUpdate st.cache qLower (storedVal sql results)}

/-- The indexing step of `SemanticCache.set`: append the embedding of the raw question
to the FAISS index and record `current_id ↦ question_lower`. -/
def semSetIndex {R : Type} (deps : Bool) (embed : List Char → List ℚ)
    (question : List Char) (st : SemState R) : SemState R :=
  if deps then
    {st with vectors := st.vectors ++ [embed question],
             idToQuestion := st.idToQuestion ++ [(st.currentId, normalizeQ question)],
             currentId := st.currentId + 1}
  else st

/-- Models `SemanticCache.set`: evict if at capacity, store under the
normalized question, then index the embedding. -/
def semSet {R : Type} (deps : Bool) (embed : List Char → List ℚ)
    (st : SemState R) (question sql : List Char) (results : R) : SemState R :=
  semSetIndex deps embed question
    (semSetStore (semSetEvict st) (normalizeQ question) sql results)

/-- A client-visible cache operation. -/
inductive CacheOp (R : Type) where
  | get (question : List Char)
  | set (question sql : List Char) (results : R)

/-- One operation applied to the state. -/
def semStep {R : Type} (deps : Bool) (embed : List Char → List ℚ)
    (st : SemState R) : CacheOp R → SemState R
  | CacheOp.get q => (semGet deps embed st q).2
  | CacheOp.set q s r => semSet deps embed st q s r

/-- The state of a fresh `SemanticCache(max_size, similarity_threshold)`. -/
def semInit (R : Type) (maxSize : Nat) (threshold : ℚ) : SemState R :=
  {maxSize := maxSize, threshold := threshold, cache := [],
   vectors := [], idToQuestion := [], currentId := 0}

/-- The state after a sequence of operations on a fresh cache. -/
def semRun {R : Type} (deps : Bool) (embed : List Char → List ℚ)
    (maxSize : Nat) (threshold : ℚ) (ops : List (CacheOp R)) : SemState R :=
  ops.foldl (semStep deps embed) (semInit R maxSize threshold)

/-! ### Dict lemmas -/

theorem assocVal_cons {K V : Type} [DecidableEq K] (p : K × V) (rest : List (K × V)) (k : K) :
    assocVal (p :: rest) k = if p.1 = k then some p.2 else assocVal rest k := by
  by_cases hp : p.1 = k <;> simp [assocVal, List.find?_cons, hp]

theorem assocVal_insertOrUpdate {K V : Type} [DecidableEq K]
    (d : List (K × V)) (k : K) (v : V) :
    assocVal (insertOrUpdate d k v) k = some v := by
  induction d with
  | nil => simp [insertOrUpdate, assocVal]
  | cons p rest ih =>
      by_cases hp : p.1 = k
      · simp [insertOrUpdate, hp, assocVal]
      · simp [insertOrUpdate, hp, assocVal_cons, ih]

theorem length_insertOrUpdate_le {K V : Type} [DecidableEq K]
    (d : List (K × V)) (k : K) (v : V) :
    (insertOrUpdate d k v).length ≤ d.length + 1 := by
  induction d with
  | nil => simp [insertOrUpdate]
  | cons p rest ih =>
      by_cases hp : p.1 = k
      · simp [insertOrUpdate, hp]
      · simp [insertOrUpdate, hp]
        omega

theorem length_removeKeyFirst {K V : Type} [DecidableEq K]
    (d : List (K × V)) (k : K) (v : V) (h : assocVal d k = some v) :
    (removeKeyFirst d k).length + 1 = d.length := by
  induction d with
  | nil => simp [assocVal] at h
  | cons p rest ih =>
      by_cases hp : p.1 = k
      · simp [removeKeyFirst, hp]
      · rw [assocVal_cons] at h
        simp only [hp, if_false] at h
        have := ih h
        simp [removeKeyFirst, hp]
        omega

theorem length_moveToEnd {K V : Type} [DecidableEq K] (d : List (K × V)) (k : K) :
    (moveToEnd d k).length = d.length := by
  unfold moveToEnd
  cases h : assocVal d k with
  | none => rfl
  | some v =>
      have := length_removeKeyFirst d k v h
      simp
      omega

/-! ### Cache state projection lemmas -/

theorem semGet_snd {R : Type} (deps : Bool) (embed : List Char → List ℚ)
    (st : SemState R) (q : List Char) :
    (semGet deps embed st q).2 =
      match assocVal st.cache (normalizeQ q) with
      | some _ => {st with cache := moveToEnd st.cache (normalizeQ q)}
      | none => st := by
  unfold semGet
  cases assocVal st.cache (normalizeQ q) with
  | some v => rfl
  | none =>
      dsimp only
      split
      · split
        · cases assocVal st.idToQuestion (nearest (embed q) st.vectors).2 with
          | some simQ =>
              dsimp only
              split
              · cases assocVal st.cache simQ with
                | some v => rfl
                | none => rfl
              · rfl
          | none => rfl
        · rfl
      · rfl

theorem semGet_maxSize {R : Type} (deps : Bool) (embed : List Char → List ℚ)
    (st : SemState R) (q : List Char) :
    (semGet deps embed st q).2.maxSize = st.maxSize := by
  rw [semGet_snd]
  cases assocVal st.cache (normalizeQ q) <;> rfl

theorem semGet_cache_length {R : Type} (deps : Bool) (embed : List Char → List ℚ)
    (st : SemState R) (q : List Char) :
    (semGet deps embed st q).2.cache.length = st.cache.length := by
  rw [semGet_snd]
  cases assocVal st.cache (normalizeQ q) with
  | none => rfl
  | some v => exact length_moveToEnd st.cache (normalizeQ q)

theorem semSetIndex_cache {R : Type} (deps : Bool) (embed : List Char → List ℚ)
    (q : List Char) (st : SemState R) :
    (semSetIndex deps embed q st).cache = st.cache := by
  unfold semSetIndex
  split <;> rfl

theorem semSetIndex_maxSize {R : Type} (deps : Bool) (embed : List Char → List ℚ)
    (q : List Char) (st : SemState R) :
    (semSetIndex deps embed q st).maxSize = st.maxSize := by
  unfold semSetIndex
  split <;> rfl

theorem semSet_cache {R : Type} (deps : Bool) (embed : List Char → List ℚ)
    (st : SemState R) (q s : List Char) (r : R) :
    (semSet deps embed st q s r).cache =
      insertOrUpdate (semSetEvict st).cache (normalizeQ q) (storedVal s r) := by
  unfold semSet semSetStore
  rw [semSetIndex_cache]

theorem semSet_maxSize {R : Type} (deps : Bool) (embed : List Char → List ℚ)
    (st : SemState R) (q s : List Char) (r : R) :
    (semSet deps embed st q s r).maxSize = st.maxSize := by
  unfold semSet semSetStore
  rw [semSetIndex_maxSize]
  unfold semSetEvict
  split <;> rfl

/-- C2: storing `(Q, sql, r)` and then immediately looking up any
question that lowercases and trims to the same text as `Q` returns a hit
carrying `sql` and `r`, tagged with cache type `exact` — for every
starting state, with or without the embedding dependencies. -/
theorem C2_store_then_exact_lookup {R : Type} :
    ∀ (deps : Bool) (embed : List Char → List ℚ) (st : SemState R)
      (q1 q2 sql : List Char) (r : R),
      normalizeQ q2 = normalizeQ q1 →
      (semGet deps embed (semSet deps embed st q1 sql r) q2).1 =
        some {sql := sql, results := r, cached := true,
              cacheType := "exact".toList, similarityScore := none} := by
  intro deps embed st q1 q2 sql r h
  have hA : assocVal (semSet deps embed st q1 sql r).cache (normalizeQ q2)
      = some (storedVal sql r) := by
    rw [h, semSet_cache]
    exact assocVal_insertOrUpdate _ _ _
  unfold semGet
  rw [hA]
  rfl

/-- Witness for C2 at a concrete question with case and whitespace
variation. -/
theorem C2_store_then_exact_lookup_witness :
    (semGet false (fun _ => ([] : List ℚ))
        (semSet false (fun _ => ([] : List ℚ)) (semInit Nat 100 (9/10))
          "  What IS this? ".toList "SELECT 1".toList 7)
        "what is this?".toList).1 =
      some {sql := "SELECT 1".toList, results := 7, cached := true,
            cacheType := "exact".toList, similarityScore := none} :=
  C2_store_then_exact_lookup false _ _ _ _ _ _ (by decide)

/-! ### C3: capacity invariant and LRU eviction -/

theorem semStep_maxSize {R : Type} (deps : Bool) (embed : List Char → List ℚ)
    (st : SemState R) (op : CacheOp R) :
    (semStep deps embed st op).maxSize = st.maxSize := by
  cases op with
  | get q => exact semGet_maxSize deps embed st q
  | set q s r => exact semSet_maxSize deps embed st q s r

theorem semStep_length {R : Type} (deps : Bool) (embed : List Char → List ℚ)
    (st : SemState R) (op : CacheOp R) (hpos : 0 < st.maxSize)
    (hl : st.cache.length ≤ st.maxSize) :
    (semStep deps embed st op).cache.length ≤ st.maxSize := by
  cases op with
  | get q =>
      have h := semGet_cache_length deps embed st q
      unfold semStep
      rw [h]
      exact hl
  | set q s r =>
      show (semSet deps embed st q s r).cache.length ≤ st.maxSize
      rw [semSet_cache]
      by_cases hc : st.maxSize ≤ st.cache.length
      · have hlen : st.cache.length = st.maxSize := le_antisymm hl hc
        have htail : (semSetEvict st).cache = st.cache.tail := by
          unfold semSetEvict
          rw [if_pos hc]
        calc (insertOrUpdate (semSetEvict st).cache (normalizeQ q) (storedVal s r)).length
            ≤ (semSetEvict st).cache.length + 1 := length_insertOrUpdate_le _ _ _
          _ = st.cache.tail.length + 1 := by rw [htail]
          _ ≤ st.maxSize := by
              rw [List.length_tail]
              omega
      · have htail : (semSetEvict st).cache = st.cache := by
          unfold semSetEvict
          rw [if_neg hc]
        calc (insertOrUpdate (semSetEvict st).cache (normalizeQ q) (storedVal s r)).length
            ≤ (semSetEvict st).cache.length + 1 := length_insertOrUpdate_le _ _ _
          _ = st.cache.length + 1 := by rw [htail]
          _ ≤ st.maxSize := by omega

theorem semFoldl_inv {R : Type} (deps : Bool) (embed : List Char → List ℚ)
    (maxSize : Nat) (ops : List (CacheOp R)) :
    ∀ st : SemState R, st.maxSize = maxSize → 0 < maxSize →
      st.cache.length ≤ maxSize →
      (ops.foldl (semStep deps embed) st).maxSize = maxSize ∧
      (ops.foldl (semStep deps embed) st).cache.length ≤ maxSize := by
  induction ops with
  | nil => exact fun st h1 _ h2 => ⟨h1, h2⟩
  | cons op rest ih =>
      intro st h1 hpos h2
      have hpos' : 0 < st.maxSize := by rw [h1]; exact hpos
      have h2' : st.cache.length ≤ st.maxSize := by rw [h1]; exact h2
      have h3 := semStep_length deps embed st op hpos' h2'
      rw [h1] at h3
      have h4 : (semStep deps embed st op).maxSize = maxSize := by
        rw [semStep_maxSize]
        exact h1
      exact ih (semStep deps embed st op) h4 hpos h3

theorem semRun_inv {R : Type} (deps : Bool) (embed : List Char → List ℚ)
    (maxSize : Nat) (threshold : ℚ) (ops : List (CacheOp R)) (hpos : 0 < maxSize) :
    (semRun deps embed maxSize threshold ops).maxSize = maxSize ∧
    (semRun deps embed maxSize threshold ops).cache.length ≤ maxSize := by
  unfold semRun
  exact semFoldl_inv deps embed maxSize ops (semInit R maxSize threshold) rfl hpos
    (by simp [semInit])

/-- C3: over every operation sequence on a fresh cache of positive
capacity `maxSize`, the exact-match map never holds more than `maxSize`
entries; and a store issued when the map holds exactly `maxSize` entries
first evicts precisely the front (least-recently-looked-up) entry and
then inserts the new one. -/
theorem C3_capacity_and_lru_eviction {R : Type} :
    ∀ (deps : Bool) (embed : List Char → List ℚ) (maxSize : Nat) (threshold : ℚ)
      (ops : List (CacheOp R)), 0 < maxSize →
      (semRun deps embed maxSize threshold ops).cache.length ≤ maxSize ∧
      (∀ q s r, (semRun deps embed maxSize threshold ops).cache.length = maxSize →
        ∃ e rest, (semRun deps embed maxSize threshold ops).cache = e :: rest ∧
          (semSet deps embed (semRun deps embed maxSize threshold ops) q s r).cache =
            insertOrUpdate rest (normalizeQ q) (storedVal s r)) := by
  intro deps embed maxSize threshold ops hpos
  have hinv := semRun_inv deps embed maxSize threshold ops hpos
  set st := semRun deps embed maxSize threshold ops with hst
  obtain ⟨hmax, hlen⟩ := hinv
  refine ⟨hlen, ?_⟩
  intro q s r hfull
  have hne : st.cache ≠ [] := by
    intro hnil
    rw [hnil] at hfull
    simp at hfull
    omega
  obtain ⟨e, rest, hc⟩ := List.exists_cons_of_ne_nil hne
  refine ⟨e, rest, hc, ?_⟩
  rw [semSet_cache]
  have hco : st.maxSize ≤ st.cache.length := by rw [hmax, hfull]
  have hev : (semSetEvict st).cache = rest := by
    unfold semSetEvict
    rw [if_pos hco, hc]
    rfl
  rw [hev]

/-- Witness for C3: three stores into a capacity-2 cache keep its size
within the bound. -/
theorem C3_capacity_and_lru_eviction_witness :
    (semRun false (fun _ => ([] : List ℚ)) 2 0
        [CacheOp.set "a".toList "s1".toList (1 : Nat),
         CacheOp.set "b".toList "s2".toList 2,
         CacheOp.set "c".toList "s3".toList 3]).cache.length ≤ 2 :=
  (C3_capacity_and_lru_eviction false _ 2 0 _ (by decide)).1

/-! ### C4: the semantic similarity threshold -/

theorem nearestAux_spec (q : List ℚ) :
    ∀ (vs : List (List ℚ)) (i : Nat) (best : ℚ × Nat),
      best.1 ≤ (nearestAux q vs i best).1 ∧
      (∀ v ∈ vs, dotQ q v ≤ (nearestAux q vs i best).1) ∧
      ((nearestAux q vs i best) = best ∨
        ∃ v ∈ vs, (nearestAux q vs i best).1 = dotQ q v) := by
  intro vs
  induction vs with
  | nil =>
      intro i best
      exact ⟨le_refl _, by simp, Or.inl rfl⟩
  | cons v rest ih =>
      intro i best
      obtain ⟨h1, h2, h3⟩ := ih (i + 1) (if best.1 < dotQ q v then (dotQ q v, i) else best)
      have hrw : nearestAux q (v :: rest) i best =
          nearestAux q rest (i + 1) (if best.1 < dotQ q v then (dotQ q v, i) else best) := rfl
      rw [hrw]
      by_cases hlt : best.1 < dotQ q v
      · rw [if_pos hlt] at h1 h2 h3 ⊢
        refine ⟨le_trans (le_of_lt hlt) h1, ?_, ?_⟩
        · intro w hw
          rcases List.mem_cons.mp hw with hwv | hwr
          · subst hwv
            exact h1
          · exact h2 w hwr
        · rcases h3 with he | ⟨w, hw, he⟩
          · exact Or.inr ⟨v, List.mem_cons_self _ _, by rw [he]⟩
          · exact Or.inr ⟨w, List.mem_cons_of_mem _ hw, he⟩
      · rw [if_neg hlt] at h1 h2 h3 ⊢
        push_neg at hlt
        refine ⟨h1, ?_, ?_⟩
        · intro w hw
          rcases List.mem_cons.mp hw with hwv | hwr
          · subst hwv
            exact le_trans hlt h1
          · exact h2 w hwr
        · rcases h3 with he | ⟨w, hw, he⟩
          · exact Or.inl he
          · exact Or.inr ⟨w, List.mem_cons_of_mem _ hw, he⟩

theorem nearest_spec (q : List ℚ) (vs : List (List ℚ)) (hne : vs ≠ []) :
    (∀ v ∈ vs, dotQ q v ≤ (nearest q vs).1) ∧
    (∃ v ∈ vs, (nearest q vs).1 = dotQ q v) := by
  cases vs with
  | nil => exact absurd rfl hne
  | cons v rest =>
      obtain ⟨h1, h2, h3⟩ := nearestAux_spec q rest 1 (dotQ q v, 0)
      have hrw : nearest q (v :: rest) = nearestAux q rest 1 (dotQ q v, 0) := rfl
      rw [hrw]
      constructor
      · intro w hw
        rcases List.mem_cons.mp hw with hwv | hwr
        · subst hwv
          exact h1
        · exact h2 w hwr
      · rcases h3 with he | ⟨w, hw, he⟩
        · exact ⟨v, List.mem_cons_self _ _, by rw [he]⟩
        · exact ⟨w, List.mem_cons_of_mem _ hw, he⟩

theorem semGet_exact {R : Type} (deps : Bool) (embed : List Char → List ℚ)
    (st : SemState R) (q : List Char) (v : CacheVal R)
    (hx : assocVal st.cache (normalizeQ q) = some v) :
    (semGet deps embed st q).1 = some (exactHit v) := by
  unfold semGet
  rw [hx]

/-- C4: with the configured threshold 0.90, a lookup that misses the
exact map yields a semantic hit only with a reported similarity that is
at least 0.90 and is exactly the greatest cosine similarity over the
stored vectors; and a question identical (after lowercasing and
trimming) to a stored question always produces the exact hit. -/
theorem C4_semantic_threshold {R : Type} :
    ∀ (embed : List Char → List ℚ) (st : SemState R) (q : List Char),
      st.threshold = 9/10 →
      (∀ h, (semGet true embed st q).1 = some h → h.cacheType = "semantic".toList →
        ∃ σ, h.similarityScore = some σ ∧ (9 : ℚ)/10 ≤ σ ∧
          (∀ v ∈ st.vectors, dotQ (embed q) v ≤ σ) ∧
          (∃ v ∈ st.vectors, σ = dotQ (embed q) v)) ∧
      (∀ v, assocVal st.cache (normalizeQ q) = some v →
        (semGet true embed st q).1 = some (exactHit v)) := by
  intro embed st q hthr
  refine ⟨?_, fun v hx => semGet_exact true embed st q v hx⟩
  intro h hsome hsem
  cases hx : assocVal st.cache (normalizeQ q) with
  | some v =>
      rw [semGet_exact true embed st q v hx] at hsome
      have hh := Option.some.inj hsome
      subst hh
      have hty : (exactHit v).cacheType = "exact".toList := rfl
      rw [hty] at hsem
      exact absurd hsem (by decide)
  | none =>
      unfold semGet at hsome
      rw [hx] at hsome
      dsimp only at hsome
      split at hsome
      · split at hsome
        · rename_i hc1 hc2
          cases hq : assocVal st.idToQuestion (nearest (embed q) st.vectors).2 with
          | some simQ =>
              rw [hq] at hsome
              dsimp only at hsome
              split at hsome
              · cases hv : assocVal st.cache simQ with
                | some v2 =>
                    rw [hv] at hsome
                    dsimp only at hsome
                    have hh := Option.some.inj hsome
                    subst hh
                    have hvne : st.vectors ≠ [] := by
                      intro hnil
                      rw [hnil] at hc1
                      simp at hc1
                    refine ⟨(nearest (embed q) st.vectors).1, rfl, ?_, ?_, ?_⟩
                    · rw [← hthr]
                      exact hc2
                    · exact (nearest_spec (embed q) st.vectors hvne).1
                    · exact (nearest_spec (embed q) st.vectors hvne).2
                | none =>
                    rw [hv] at hsome
                    exact Option.noConfusion hsome
              · exact Option.noConfusion hsome
          | none =>
              rw [hq] at hsome
              exact Option.noConfusion hsome
        · exact Option.noConfusion hsome
      · exact Option.noConfusion hsome

/-- Witness for C4: an identical stored question produces the exact hit. -/
theorem C4_semantic_threshold_witness :
    (semGet true (fun _ => ([] : List ℚ))
        ({maxSize := 100, threshold := 9/10,
          cache := [("q".toList, storedVal "s".toList (1 : Nat))],
          vectors := [], idToQuestion := [], currentId := 0} : SemState Nat)
        "q".toList).1 =
      some (exactHit (storedVal "s".toList 1)) :=
  (C4_semantic_threshold _ _ _ rfl).2 _ (by decide)

/-- C7: when the exact map misses and the similarity search resolves to
an id whose recorded question is no longer present in the exact map, the
lookup returns a miss (`none`) and leaves the state unchanged, rather
than failing or serving a stale entry. -/
theorem C7_stale_semantic_id_misses {R : Type} :
    ∀ (embed : List Char → List ℚ) (st : SemState R) (q : List Char),
      assocVal st.cache (normalizeQ q) = none →
      (∀ qs, assocVal st.idToQuestion (nearest (embed q) st.vectors).2 = some qs →
        assocVal st.cache qs = none) →
      semGet true embed st q = (none, st) := by
  intro embed st q h1 h2
  unfold semGet
  rw [h1]
  dsimp only
  split
  · split
    · cases hq : assocVal st.idToQuestion (nearest (embed q) st.vectors).2 with
      | some qs =>
          dsimp only
          split
          · rw [h2 qs hq]
          · rfl
      | none => rfl
    · rfl
  · rfl

/-- Witness for C7: a concrete state whose only indexed id points at an
evicted question; the lookup on a fresh question misses cleanly. -/
theorem C7_stale_semantic_id_misses_witness :
    semGet true (fun _ => [(1 : ℚ)])
        ({maxSize := 100, threshold := 9/10, cache := [],
          vectors := [[(1 : ℚ)]], idToQuestion := [(0, "gone".toList)],
          currentId := 1} : SemState Nat)
        "x".toList =
      (none,
        {maxSize := 100, threshold := 9/10, cache := [],
         vectors := [[(1 : ℚ)]], idToQuestion := [(0, "gone".toList)],
         currentId := 1}) :=
  C7_stale_semantic_id_misses _ _ _ rfl (fun _ _ => rfl)

/-! ### Schema linking — `SchemaOptimizer` and `VectorSchemaOptimizer`

The full schema is the key list of the catalog loaded from the live
database (`load_schema`), in its iteration order.  The opaque embedding
model enters only through the similarity profile `sim`, the cosine
similarity of the question embedding with each precomputed
table-description embedding. -/

/-- Models `SchemaOptimizer.table_keywords` (seven tables, no enrollments). -/
def table_keywords : List (List Char × List (List Char)) :=
  [("students".toList,
     ["student".toList, "name".toList, "gpa".toList, "grade".toList, "enrollment".toList]),
   ("departments".toList,
     ["department".toList, "dept".toList, "hod".toList, "faculty".toList]),
   ("courses".toList, ["course".toList, "subject".toList, "class".toList]),
   ("attendance".toList,
     ["attendance".toList, "present".toList, "absent".toList, "attend".toList]),
   ("grades".toList,
     ["grade".toList, "score".toList, "marks".toList, "result".toList, "exam".toList]),
   ("hostels".toList,
     ["hostel".toList, "room".toList, "accommodation".toList, "residence".toList]),
   ("placements".toList,
     ["placement".toList, "job".toList, "company".toList, "recruit".toList, "placed".toList])]

/-- Models `VectorSchemaOptimizer.table_keywords`: the same seven entries
followed by an enrollments entry. -/
def vector_table_keywords : List (List Char × List (List Char)) :=
  table_keywords ++
    [("enrollments".toList,
       ["enrollment".toList, "enrolled".toList, "taking".toList, "registered".toList])]

/-- The keyword selection loop shared by both files: a table is selected
iff it is in the schema and one of its keywords occurs in the lowercased
question; order follows the keyword table. -/
def keywordMatches (tk : List (List Char × List (List Char)))
    (fullSchema : List (List Char)) (question : List Char) : List (List Char) :=
  (tk.filter (fun p => decide (p.1 ∈ fullSchema) &&
      p.2.any (fun kw => subOf kw (lowerStr question)))).map (fun p => p.1)

/-- The junction-completion rule shared by all three selection paths:
force-include enrollments when both students and courses were selected. -/
def addEnrollments (relevant : List (List Char)) : List (List Char) :=
  if "students".toList ∈ relevant ∧ "courses".toList ∈ relevant ∧
      "enrollments".toList ∉ relevant then
    relevant ++ ["enrollments".toList]
  else relevant

/-- Models `SchemaOptimizer.get_relevant_tables` (table-selection part):
keyword matching, junction completion, then full-catalog fallback when
nothing was selected. -/
def schemaOptimizer_get_relevant_tables (fullSchema : List (List Char))
    (question : List Char) : List (List Char) :=
  if (addEnrollments (keywordMatches table_keywords fullSchema question)).isEmpty then
    fullSchema
  else addEnrollments (keywordMatches table_keywords fullSchema question)

/-- Models `VectorSchemaOptimizer._get_relevant_tables_keyword`: the identical
loop over the keyword table that includes enrollments. -/
def vector_get_relevant_tables_keyword (fullSchema : List (List Char))
    (question : List Char) : List (List Char) :=
  if (addEnrollments (keywordMatches vector_table_keywords fullSchema question)).isEmpty then
    fullSchema
  else addEnrollments (keywordMatches vector_table_keywords fullSchema question)

/-- The key order of `VectorSchemaOptimizer.table_descriptions` (and so
of `table_embeddings`), which is also the catalog of the deployed
database. -/
def table_descriptions_keys : List (List Char) :=
  ["students".toList, "departments".toList, "courses".toList, "attendance".toList,
   "grades".toList, "hostels".toList, "placements".toList, "enrollments".toList]

/-- Stable insertion into a descending-by-score list. -/
def insertDesc (x : List Char × ℚ) : List (List Char × ℚ) → List (List Char × ℚ)
  | [] => [x]
  | y :: rest => if y.2 ≤ x.2 then x :: y :: rest else y :: insertDesc x rest

/-- Python `sorted(items, key=score, reverse=True)`: stable descending
sort by score. -/
def sortDesc (l : List (List Char × ℚ)) : List (List Char × ℚ) := l.foldr insertDesc []

/-- The `score > 0.3` floor of `_get_relevant_tables_vector`, written
with `mkRat` so that it evaluates by kernel reduction. -/
def SIMILARITY_FLOOR : ℚ := mkRat 3 10

/-- Models `VectorSchemaOptimizer._get_relevant_tables_vector`, parametrized by
the similarity profile `sim`: similarities are computed for the
description tables present in the schema, sorted descending, the top-k
above the 0.3 floor are kept, and the junction rule is applied.  This
code path has no full-catalog fallback. -/
def vector_get_relevant_tables_vector (sim : List Char → ℚ) (top_k : Nat)
    (fullSchema : List (List Char)) : List (List Char) :=
  addEnrollments
    ((((sortDesc ((table_descriptions_keys.filter
        (fun t => decide (t ∈ fullSchema))).map (fun t => (t, sim t)))).take top_k).filter
        (fun p => decide (SIMILARITY_FLOOR < p.2))).map (fun p => p.1))

/-- Models `VectorSchemaOptimizer._get_relevant_tables_vector` dispatch: falls
back to keyword selection when the embedding model is unavailable. -/
def vector_get_relevant_tables (deps : Bool) (sim : List Char → ℚ)
    (fullSchema : List (List Char)) (question : List Char) : List (List Char) :=
  if deps then vector_get_relevant_tables_vector sim 4 fullSchema
  else vector_get_relevant_tables_keyword fullSchema question

theorem mem_insertDesc (x y : List Char × ℚ) (l : List (List Char × ℚ))
    (h : x ∈ insertDesc y l) : x = y ∨ x ∈ l := by
  induction l with
  | nil =>
      simp [insertDesc] at h
      exact Or.inl h
  | cons z rest ih =>
      unfold insertDesc at h
      by_cases hc : z.2 ≤ y.2
      · rw [if_pos hc] at h
        rcases List.mem_cons.mp h with h1 | h2
        · exact Or.inl h1
        · exact Or.inr h2
      · rw [if_neg hc] at h
        rcases List.mem_cons.mp h with h1 | h2
        · exact Or.inr (by rw [h1]; exact List.mem_cons_self _ _)
        · rcases ih h2 with h3 | h4
          · exact Or.inl h3
          · exact Or.inr (List.mem_cons_of_mem _ h4)

theorem mem_sortDesc (x : List Char × ℚ) (l : List (List Char × ℚ))
    (h : x ∈ sortDesc l) : x ∈ l := by
  induction l with
  | nil => simp [sortDesc] at h
  | cons y rest ih =>
      have hrw : sortDesc (y :: rest) = insertDesc y (sortDesc rest) := rfl
      rw [hrw] at h
      rcases mem_insertDesc x y (sortDesc rest) h with h1 | h2
      · rw [h1]
        exact List.mem_cons_self _ _
      · exact List.mem_cons_of_mem _ (ih h2)

/-- C5 counterexample: in the vector strategy there is no full-catalog
fallback — when no table similarity exceeds the 0.3 floor (an attainable
profile for the opaque embedding model: `_normalize_vector` maps a
zero-norm embedding to itself, making every cosine similarity 0) the
selection is empty, not the full catalog. -/
theorem C5_counterexample :
    vector_get_relevant_tables_vector (fun _ => 0) 4 table_descriptions_keys = [] ∧
    table_descriptions_keys ≠ [] := by
  constructor
  · decide
  · decide

/-- C5 amended: the two keyword selection paths never return an empty
selection on a nonempty catalog (they fall back to the full catalog),
but the vector strategy returns the empty selection whenever no table
similarity exceeds the 0.3 floor — the fallback exists only in the
keyword paths. -/
theorem C5_no_match_fallback_amended :
    ∀ (question : List Char) (fullSchema : List (List Char)) (sim : List Char → ℚ)
      (top_k : Nat),
      (fullSchema ≠ [] → schemaOptimizer_get_relevant_tables fullSchema question ≠ []) ∧
      (fullSchema ≠ [] → vector_get_relevant_tables_keyword fullSchema question ≠ []) ∧
      ((∀ t, sim t ≤ 3/10) → vector_get_relevant_tables_vector sim top_k fullSchema = []) := by
  intro question fullSchema sim top_k
  refine ⟨?_, ?_, ?_⟩
  · intro hne
    unfold schemaOptimizer_get_relevant_tables
    by_cases h : (addEnrollments (keywordMatches table_keywords fullSchema question)).isEmpty
      = true
    · rw [if_pos h]
      exact hne
    · rw [if_neg h]
      intro hnil
      exact h (by rw [hnil]; rfl)
  · intro hne
    unfold vector_get_relevant_tables_keyword
    by_cases h :
        (addEnrollments (keywordMatches vector_table_keywords fullSchema question)).isEmpty
          = true
    · rw [if_pos h]
      exact hne
    · rw [if_neg h]
      intro hnil
      exact h (by rw [hnil]; rfl)
  · intro hsim
    unfold vector_get_relevant_tables_vector
    have hfloor : SIMILARITY_FLOOR = 3/10 := by
      norm_num [SIMILARITY_FLOOR, Rat.mkRat_eq_div]
    have hfil : (((sortDesc ((table_descriptions_keys.filter
        (fun t => decide (t ∈ fullSchema))).map (fun t => (t, sim t)))).take top_k).filter
        (fun p => decide (SIMILARITY_FLOOR < p.2))) = [] := by
      rw [List.filter_eq_nil_iff]
      intro p hp
      have h1 := List.mem_of_mem_take hp
      have h2 := mem_sortDesc p _ h1
      obtain ⟨t, _, hpt⟩ := List.mem_map.mp h2
      simp only [decide_eq_true_eq]
      rw [← hpt, hfloor]
      exact not_lt.mpr (hsim t)
    rw [hfil]
    rfl

/-- Witness for C5 amended: with the deployed catalog the keyword
strategy of `SchemaOptimizer` returns a nonempty selection even for a
question matching no keyword. -/
theorem C5_no_match_fallback_amended_witness :
    schemaOptimizer_get_relevant_tables table_descriptions_keys "hello world".toList ≠ [] :=
  (C5_no_match_fallback_amended "hello world".toList table_descriptions_keys
    (fun _ => 0) 4).1 (by decide)

theorem addEnrollments_junction (l : List (List Char))
    (h : "students".toList ∈ addEnrollments l ∧ "courses".toList ∈ addEnrollments l) :
    "enrollments".toList ∈ addEnrollments l := by
  unfold addEnrollments at h ⊢
  by_cases hc : "students".toList ∈ l ∧ "courses".toList ∈ l ∧ "enrollments".toList ∉ l
  · rw [if_pos hc]
    exact List.mem_append_right _ (by simp)
  · rw [if_neg hc] at h ⊢
    obtain ⟨hs, hcs⟩ := h
    by_contra he
    exact hc ⟨hs, hcs, he⟩

/-- C6: whenever a selection includes both the students table and the
courses table, the enrollments junction table is included as well — in
the keyword strategy of `SchemaOptimizer`, the keyword fallback strategy
of `VectorSchemaOptimizer` (each assuming the deployed catalog contains
the enrollments table, which covers the full-catalog fallback branch),
and unconditionally in the vector strategy. -/
theorem C6_junction_rule :
    ∀ (question : List Char) (fullSchema : List (List Char)) (sim : List Char → ℚ)
      (top_k : Nat),
      ("enrollments".toList ∈ fullSchema →
        "students".toList ∈ schemaOptimizer_get_relevant_tables fullSchema question ∧
        "courses".toList ∈ schemaOptimizer_get_relevant_tables fullSchema question →
        "enrollments".toList ∈ schemaOptimizer_get_relevant_tables fullSchema question) ∧
      ("enrollments".toList ∈ fullSchema →
        "students".toList ∈ vector_get_relevant_tables_keyword fullSchema question ∧
        "courses".toList ∈ vector_get_relevant_tables_keyword fullSchema question →
        "enrollments".toList ∈ vector_get_relevant_tables_keyword fullSchema question) ∧
      ("students".toList ∈ vector_get_relevant_tables_vector sim top_k fullSchema ∧
        "courses".toList ∈ vector_get_relevant_tables_vector sim top_k fullSchema →
        "enrollments".toList ∈ vector_get_relevant_tables_vector sim top_k fullSchema) := by
  intro question fullSchema sim top_k
  refine ⟨?_, ?_, ?_⟩
  · intro henr hmem
    unfold schemaOptimizer_get_relevant_tables at hmem ⊢
    by_cases h : (addEnrollments (keywordMatches table_keywords fullSchema question)).isEmpty
      = true
    · rw [if_pos h]
      exact henr
    · rw [if_neg h] at hmem ⊢
      exact addEnrollments_junction _ hmem
  · intro henr hmem
    unfold vector_get_relevant_tables_keyword at hmem ⊢
    by_cases h :
        (addEnrollments (keywordMatches vector_table_keywords fullSchema question)).isEmpty
          = true
    · rw [if_pos h]
      exact henr
    · rw [if_neg h] at hmem ⊢
      exact addEnrollments_junction _ hmem
  · intro hmem
    unfold vector_get_relevant_tables_vector at hmem ⊢
    exact addEnrollments_junction _ hmem

/-- Witness for C6: a question matching both the students and courses
keywords pulls in the enrollments table. -/
theorem C6_junction_rule_witness :
    "enrollments".toList ∈ schemaOptimizer_get_relevant_tables table_descriptions_keys
      "list students and their courses".toList :=
  (C6_junction_rule "list students and their courses".toList table_descriptions_keys
    (fun _ => 0) 4).1 (by decide) (by decide)

/-! ### Caching middleware — `CachingMiddleware` -/

/-- A value stored in `CachingMiddleware.exact_cache`. -/
structure MwVal (R : Type) where
  sql : List Char
  results : R
  timestamp : ℚ
  deriving DecidableEq

/-- The dict returned by `before_request` on a hit: the cached value
with `cached` / `cache_type` added. -/
structure MwHit (R : Type) where
  sql : List Char
  results : R
  timestamp : ℚ
  cached : Bool
  cacheType : List Char
  deriving DecidableEq

/-- The mutable state of a `CachingMiddleware` instance. -/
structure MwState (R : Type) where
  exactCache : List (List Char × MwVal R)
  maxSize : Nat
  hits : Nat
  misses : Nat
  totalTimeSaved : ℚ
  deriving DecidableEq

/-- Models `CachingMiddleware._compute_cache_key`: the key is derived from
`f"{question.lower().strip()}:{schema[:500]}"` — the normalized question
AND the first 500 characters of the schema context.  The code hashes
this string with SHA-256; the hash is modelled as injective, so the
pre-image string itself serves as the key. -/
def compute_cache_key (question schema : List Char) : List Char :=
  normalizeQ question ++ ':' :: schema.take 500

/-- Models `CachingMiddleware.before_request`: exact lookup with hit/miss
counters, LRU promotion and time-saved accounting. -/
def before_request {R : Type} (st : MwState R) (question schema : List Char) :
    Option (MwHit R) × MwState R :=
  match assocVal st.exactCache (compute_cache_key question schema) with
  | some v =>
      (some {sql := v.sql, results := v.results, timestamp := v.timestamp,
             cached := true, cacheType := "exact".toList},
       {st with hits := st.hits + 1,
                exactCache := moveToEnd st.exactCache (compute_cache_key question schema),
                totalTimeSaved := st.totalTimeSaved + 2})
  | none => (none, {st with misses := st.misses + 1})

/-- Models `CachingMiddleware.after_response`: evict the oldest entry when at
capacity, then store; `now` is the wall-clock timestamp. -/
def after_response {R : Type} (st : MwState R) (question schema sql : List Char)
    (results : R) (now : ℚ) : MwState R :=
  {st with exactCache :=
      (insertOrUpdate
        (if st.maxSize ≤ st.exactCache.length then st.exactCache.tail else st.exactCache)
        (compute_cache_key question schema)
        {sql := sql, results := results, timestamp := now})}

/-- Models `CachingMiddleware.hit_rate`. -/
def hit_rate {R : Type} (st : MwState R) : ℚ :=
  if 0 < st.hits + st.misses then (st.hits : ℚ) / ((st.hits : ℚ) + (st.misses : ℚ))
  else 0

/-- The state of a fresh `CachingMiddleware(max_size)`. -/
def mwInit (R : Type) (maxSize : Nat) : MwState R :=
  {exactCache := [], maxSize := maxSize, hits := 0, misses := 0, totalTimeSaved := 0}

/-- Models `CachingMiddleware.clear`. -/
def mwClear {R : Type} (st : MwState R) : MwState R :=
  {st with exactCache := [], hits := 0, misses := 0, totalTimeSaved := 0}

/-- Middleware states reachable from a fresh instance through the public
operations. -/
inductive MwReachable (R : Type) : MwState R → Prop where
  | init : ∀ n, MwReachable R (mwInit R n)
  | step_lookup : ∀ st q s, MwReachable R st → MwReachable R (before_request st q s).2
  | step_store : ∀ st q s sql r now, MwReachable R st →
      MwReachable R (after_response st q s sql r now)
  | step_clear : ∀ st, MwReachable R st → MwReachable R (mwClear st)

/-- C9 counterexample: the middleware exact-hit outcome is NOT
independent of the `schemaContext` argument.  After storing under
`("q", "schemaA")`, looking `"q"` up with the same schema context hits,
but looking it up with schema context `"schemaB"` misses — the cache key
includes the first 500 characters of the schema. -/
theorem C9_counterexample :
    ((before_request (after_response (mwInit Nat 200) "q".toList "schemaA".toList
        "SELECT 1".toList 7 0) "q".toList "schemaA".toList).1 ≠ none) ∧
    ((before_request (after_response (mwInit Nat 200) "q".toList "schemaA".toList
        "SELECT 1".toList 7 0) "q".toList "schemaB".toList).1 = none) := by
  constructor
  · decide
  · decide

/-- C9 amended: the middleware exact-cache key is computed from
`lowercase(trim(question))` TOGETHER WITH the first 500 characters of
the schema context, not from the question alone: two lookups agree (in
returned hit and successor state) whenever their questions normalize to
the same text and their schema contexts agree on the first 500
characters. -/
theorem C9_cache_key_amended {R : Type} :
    ∀ (st : MwState R) (q1 q2 s1 s2 : List Char),
      normalizeQ q1 = normalizeQ q2 → s1.take 500 = s2.take 500 →
      (before_request st q1 s1).1 = (before_request st q2 s2).1 ∧
      (before_request st q1 s1).2 = (before_request st q2 s2).2 := by
  intro st q1 q2 s1 s2 hq hs
  have hk : compute_cache_key q1 s1 = compute_cache_key q2 s2 := by
    unfold compute_cache_key
    rw [hq, hs]
  unfold before_request
  rw [hk]
  exact ⟨rfl, rfl⟩

/-- Witness for C9 amended: case/whitespace variation in the question
with identical schema context yields the same outcome. -/
theorem C9_cache_key_amended_witness :
    (before_request (mwInit Nat 200) " Q1 ".toList "s".toList).1 =
      (before_request (mwInit Nat 200) "q1".toList "s".toList).1 :=
  (C9_cache_key_amended (mwInit Nat 200) " Q1 ".toList "q1".toList
    "s".toList "s".toList (by decide) rfl).1

/-- C10: `hit_rate` is total on every reachable state — it returns
`hits / (hits + misses)` once at least one lookup has been counted and
`0.0` when none has, so the guarded division never divides by zero. -/
theorem C10_hit_rate_total {R : Type} :
    ∀ st : MwState R, MwReachable R st →
      (st.hits + st.misses = 0 → hit_rate st = 0) ∧
      (0 < st.hits + st.misses →
        hit_rate st = (st.hits : ℚ) / ((st.hits : ℚ) + (st.misses : ℚ))) := by
  intro st _
  constructor
  · intro h
    unfold hit_rate
    rw [if_neg (by omega)]
  · intro h
    unfold hit_rate
    rw [if_pos h]

/-- Witness for C10 at the freshly constructed middleware. -/
theorem C10_hit_rate_total_witness :
    hit_rate (mwInit Nat 200) = 0 :=
  (C10_hit_rate_total (mwInit Nat 200) (MwReachable.init 200)).1 rfl

end SmartUniversity
